import Mathlib

/-!
# Verification of the windy merge-and-render pipeline

Shallow embedding of the core of `src/main.go` (the variant with price
merging, `entry`/`fetchWinds`/`fetchPrices`/`merge`/`parsePrices`).

Modelling conventions:
* Go `float64` values (`speed`, `gust`, `price`, `SEK_per_kWh`) are only ever
  copied by the modelled code, never computed with, so they are modelled as
  exact rationals (`Rat`).
* A Go slice of pointers `[]*entry` is modelled as `List (Option entry)`:
  `none` is a `nil` pointer (the zero value a `make([]*entry, n)` allocation
  holds in unfilled slots).
* A runtime panic (nil-pointer dereference, out-of-range index) is modelled
  by an `Option`-valued result being `none`.
* Upstream HTTP transport and the `jsonparser` traversals are external
  collaborators: functions take the parsed field arrays (or an
  `Except String` fetch outcome) as inputs instead of performing I/O.
-/

/-- The merged record of `src/main.go` (`type entry struct`, lines 512-517):
an hour label together with wind speed, wind gust and electricity price.
Field order follows the Go struct. -/
structure entry where
  hour : String
  gust : Rat
  speed : Rat
  price : Rat
deriving DecidableEq, Repr

/-- The inner loop of `merge` (`src/main.go` lines 272-279): scan the entries
slice in index order and set the price of the first entry whose `hour` equals
the price point's `hour`, then break.  Encountering a `nil` entry pointer
before a match dereferences it (`e.hour`) and panics, modelled by `none`. -/
def setFirst : List (Option entry) → entry → Option (List (Option entry))
  | [], _ => some []
  | none :: _, _ => none
  | some e :: es, p =>
    if p.hour = e.hour then some (some { e with price := p.price } :: es)
    else (setFirst es p).map (fun l => some e :: l)

/-- One iteration of the outer loop of `merge` for a single price slot `p?`.
If the entries slice is empty the inner loop body never runs (so a `nil`
price pointer is not dereferenced); otherwise a `nil` price pointer panics
at the first `p.hour` read. -/
def mergeStep (es : List (Option entry)) (p? : Option entry) : Option (List (Option entry)) :=
  match es, p? with
  | [], _ => some []
  | _ :: _, none => none
  | es, some p => setFirst es p

/-- `merge` from `src/main.go` (lines 271-280).  The Go function mutates the
entries slice in place through its pointers; the model returns the final
state of the entries slice.  The price slots are only read (`p.hour`,
`p.price`), never written, so the prices argument is unchanged by
construction; the embedding assumes the two slices do not share pointers,
which holds at every call site (`fetchWinds` and `fetchPrices` allocate
their records separately). -/
def merge : List (Option entry) → List (Option entry) → Option (List (Option entry))
  | es, [] => some es
  | es, p? :: ps => (mergeStep es p?).bind (fun es' => merge es' ps)

/-- Forgetting the price field: used to state that `merge` only ever changes
prices (frame property). -/
def erasePrice (e : entry) : entry := { e with price := 0 }

/-- Specification helper (not source code): the result of the inner scan of
`merge` for hour `h` over the entries slice, determined by the slice's shape
alone.  `none` models a panic (a `nil` slot reached before a match),
`some none` a completed scan without a match, `some (some j)` a first match
at index `j`. -/
def scanIdx : List (Option entry) → String → Option (Option Nat)
  | [], _ => some none
  | none :: _, _ => none
  | some e :: es, h =>
    if h = e.hour then some (some 0)
    else (scanIdx es h).map (Option.map Nat.succ)

/-- Specification helper (not source code): overwrite the price stored in
slot `j` (a no-op on a missing or `nil` slot). -/
def writePrice : List (Option entry) → Nat → Rat → List (Option entry)
  | [], _, _ => []
  | e? :: es, 0, v => e?.map (fun e => { e with price := v }) :: es
  | e? :: es, j + 1, v => e? :: writePrice es j v

/-- Specification helper: the price written into slot `i` by the last price
point of `ps` whose first-match scan lands on `i`, if any. -/
def lastWriteTo (es : List (Option entry)) (ps : List entry) (i : Nat) : Option Rat :=
  match ps with
  | [] => none
  | p :: ps =>
    match lastWriteTo es ps i with
    | some v => some v
    | none => if scanIdx es p.hour = some (some i) then some p.price else none

/-- Specification helper: the price of the last price point of `ps` whose
hour equals `h`, if any. -/
def lastPrice (ps : List entry) (h : String) : Option Rat :=
  match ps with
  | [] => none
  | p :: ps =>
    match lastPrice ps h with
    | some v => some v
    | none => if p.hour = h then some p.price else none

section MergeLemmas

theorem get?_ext {α : Type _} : ∀ (l₁ l₂ : List α), (∀ i, l₁.get? i = l₂.get? i) → l₁ = l₂
  | [], [], _ => rfl
  | [], _ :: _, h => by simpa using h 0
  | _ :: _, [], h => by simpa using h 0
  | a :: l₁, b :: l₂, h => by
    have h0 := h 0
    simp only [List.get?] at h0
    cases h0
    exact congrArg _ (get?_ext l₁ l₂ (fun i => h (i + 1)))

theorem mergeStep_some (es : List (Option entry)) (p : entry) :
    mergeStep es (some p) = setFirst es p := by
  cases es <;> rfl

theorem setFirst_eq (es : List (Option entry)) (p : entry) :
    setFirst es p = (scanIdx es p.hour).map
      (fun j? => match j? with
        | none => es
        | some j => writePrice es j p.price) := by
  induction es with
  | nil => rfl
  | cons e? es ih =>
    cases e? with
    | none => rfl
    | some e =>
      simp only [setFirst, scanIdx]
      by_cases hh : p.hour = e.hour
      · simp [hh, writePrice]
      · rw [if_neg hh, if_neg hh, ih]
        cases hs : scanIdx es p.hour with
        | none => rfl
        | some j? => cases j? <;> simp [writePrice]

theorem writePrice_get?_ne (es : List (Option entry)) (j : Nat) (v : Rat)
    (i : Nat) (hij : i ≠ j) : (writePrice es j v).get? i = es.get? i := by
  induction es generalizing i j with
  | nil => rfl
  | cons e? es ih =>
    cases j with
    | zero =>
      cases i with
      | zero => exact absurd rfl hij
      | succ i => rfl
    | succ j =>
      cases i with
      | zero => rfl
      | succ i => exact ih j i (fun h => hij (congrArg Nat.succ h))

theorem writePrice_get?_eq (es : List (Option entry)) (j : Nat) (v : Rat) :
    (writePrice es j v).get? j = (es.get? j).map (Option.map (fun e => { e with price := v })) := by
  induction es generalizing j with
  | nil => cases j <;> rfl
  | cons e? es ih =>
    cases j with
    | zero => cases e? <;> rfl
    | succ j => exact ih j

theorem scanIdx_writePrice (es : List (Option entry)) (j : Nat) (v : Rat) (h : String) :
    scanIdx (writePrice es j v) h = scanIdx es h := by
  induction es generalizing j with
  | nil => rfl
  | cons e? es ih =>
    cases j with
    | zero => cases e? <;> simp [writePrice, scanIdx]
    | succ j =>
      cases e? with
      | none => rfl
      | some e => simp [writePrice, scanIdx, ih j]

theorem scanIdx_sound (es : List (Option entry)) (h : String) (j : Nat)
    (hs : scanIdx es h = some (some j)) :
    ∃ e, es.get? j = some (some e) ∧ e.hour = h := by
  induction es generalizing j with
  | nil => simp [scanIdx] at hs
  | cons e? es ih =>
    cases e? with
    | none => simp [scanIdx] at hs
    | some e =>
      simp only [scanIdx] at hs
      by_cases hh : h = e.hour
      · rw [if_pos hh] at hs
        cases hs
        exact ⟨e, rfl, hh.symm⟩
      · rw [if_neg hh] at hs
        cases hs' : scanIdx es h with
        | none => rw [hs'] at hs; simp at hs
        | some j? =>
          rw [hs'] at hs
          cases j? with
          | none => simp at hs
          | some j' =>
            simp only [Option.map_some'] at hs
            cases hs
            obtain ⟨e', he', hh'⟩ := ih j' hs'
            exact ⟨e', he', hh'⟩

theorem setFirst_some_cases (es es₁ : List (Option entry)) (p : entry)
    (h : setFirst es p = some es₁) :
    (scanIdx es p.hour = some none ∧ es₁ = es) ∨
    (∃ j, scanIdx es p.hour = some (some j) ∧ es₁ = writePrice es j p.price) := by
  rw [setFirst_eq] at h
  cases hs : scanIdx es p.hour with
  | none => rw [hs] at h; simp at h
  | some j? =>
    rw [hs] at h
    simp only [Option.map_some'] at h
    cases j? with
    | none => exact Or.inl ⟨rfl, (Option.some.inj h).symm⟩
    | some j => exact Or.inr ⟨j, rfl, (Option.some.inj h).symm⟩

theorem merge_scanIdx_inv : ∀ (ps : List entry) (es r : List (Option entry)),
    merge es (ps.map some) = some r → ∀ h, scanIdx r h = scanIdx es h := by
  intro ps
  induction ps with
  | nil =>
    intro es r hm h
    simp only [List.map_nil, merge] at hm
    cases hm
    rfl
  | cons p ps ih =>
    intro es r hm h
    simp only [List.map_cons, merge, mergeStep_some] at hm
    cases hstep : setFirst es p with
    | none => rw [hstep] at hm; simp at hm
    | some es₁ =>
      rw [hstep] at hm
      simp only [Option.some_bind] at hm
      have hinv := ih es₁ r hm h
      rcases setFirst_some_cases es es₁ p hstep with ⟨_, rfl⟩ | ⟨j, _, rfl⟩
      · exact hinv
      · rw [hinv, scanIdx_writePrice]

theorem lastWriteTo_congr (es es' : List (Option entry))
    (hs : ∀ h, scanIdx es' h = scanIdx es h) (ps : List entry) (i : Nat) :
    lastWriteTo es' ps i = lastWriteTo es ps i := by
  induction ps with
  | nil => rfl
  | cons p ps ih => simp only [lastWriteTo, ih, hs p.hour]

theorem option_map_price_self (o : Option (Option entry)) :
    o.map (Option.map (fun e => { e with price := e.price })) = o := by
  cases o with
  | none => rfl
  | some e? => cases e? <;> rfl

theorem map_price_getD_twice (w : Option Rat) (o : Option (Option entry)) :
    (o.map (Option.map (fun e => { e with price := w.getD e.price }))).map
      (Option.map (fun e => { e with price := w.getD e.price })) =
    o.map (Option.map (fun e => { e with price := w.getD e.price })) := by
  cases o with
  | none => rfl
  | some e? =>
    cases e? with
    | none => rfl
    | some e => cases w <;> rfl

theorem merge_get?_spec : ∀ (ps : List entry) (es r : List (Option entry)),
    merge es (ps.map some) = some r → ∀ i,
    r.get? i = (es.get? i).map (Option.map
      (fun e => { e with price := (lastWriteTo es ps i).getD e.price })) := by
  intro ps
  induction ps with
  | nil =>
    intro es r hm i
    simp only [List.map_nil, merge] at hm
    cases hm
    simp only [lastWriteTo]
    exact (option_map_price_self (es.get? i)).symm
  | cons p ps ih =>
    intro es r hm i
    simp only [List.map_cons, merge, mergeStep_some] at hm
    cases hstep : setFirst es p with
    | none => rw [hstep] at hm; simp at hm
    | some es₁ =>
      rw [hstep] at hm
      simp only [Option.some_bind] at hm
      have hspec := ih es₁ r hm i
      rcases setFirst_some_cases es es₁ p hstep with ⟨hscan, heq⟩ | ⟨j, hscan, heq⟩
      · rw [heq] at hspec
        rw [hspec]
        have hlast : lastWriteTo es (p :: ps) i = lastWriteTo es ps i := by
          simp only [lastWriteTo, hscan]
          cases lastWriteTo es ps i with
          | none => simp
          | some v => rfl
        rw [hlast]
      · rw [heq] at hspec
        have hcong : lastWriteTo (writePrice es j p.price) ps i = lastWriteTo es ps i :=
          lastWriteTo_congr es (writePrice es j p.price)
            (fun h => scanIdx_writePrice es j p.price h) ps i
        rw [hcong] at hspec
        rw [hspec]
        by_cases hij : i = j
        · subst hij
          obtain ⟨e, he, hhour⟩ := scanIdx_sound es p.hour i hscan
          rw [writePrice_get?_eq, he]
          have hlast : lastWriteTo es (p :: ps) i =
              match lastWriteTo es ps i with
              | some v => some v
              | none => some p.price := by
            simp only [lastWriteTo, hscan]
            cases lastWriteTo es ps i with
            | some v => rfl
            | none => simp
          rw [hlast]
          cases lastWriteTo es ps i with
          | none => rfl
          | some v => rfl
        · rw [writePrice_get?_ne es j p.price i hij]
          have hlast : lastWriteTo es (p :: ps) i = lastWriteTo es ps i := by
            simp only [lastWriteTo, hscan]
            cases lastWriteTo es ps i with
            | some v => rfl
            | none =>
              rw [if_neg]
              intro hcontra
              exact hij (Option.some.inj (Option.some.inj hcontra)).symm
          rw [hlast]

theorem merge_isSome_congr : ∀ (ps : List entry) (es es' r : List (Option entry)),
    (∀ h, scanIdx es' h = scanIdx es h) →
    merge es (ps.map some) = some r →
    ∃ r', merge es' (ps.map some) = some r' := by
  intro ps
  induction ps with
  | nil =>
    intro es es' r _ _
    exact ⟨es', rfl⟩
  | cons p ps ih =>
    intro es es' r hs hm
    simp only [List.map_cons, merge, mergeStep_some] at hm ⊢
    cases hstep : setFirst es p with
    | none => rw [hstep] at hm; simp at hm
    | some es₁ =>
      rw [hstep] at hm
      simp only [Option.some_bind] at hm
      rcases setFirst_some_cases es es₁ p hstep with ⟨hscan, rfl⟩ | ⟨j, hscan, rfl⟩
      · have hstep' : setFirst es' p = some es' := by
          rw [setFirst_eq, hs p.hour, hscan]; rfl
        rw [hstep', Option.some_bind]
        exact ih es₁ es' r hs hm
      · have hstep' : setFirst es' p = some (writePrice es' j p.price) := by
          rw [setFirst_eq, hs p.hour, hscan]; rfl
        rw [hstep', Option.some_bind]
        refine ih _ _ r (fun h => ?_) hm
        rw [scanIdx_writePrice, scanIdx_writePrice, hs h]

theorem writePrice_erase (es : List (Option entry)) (j : Nat) (v : Rat) :
    (writePrice es j v).map (Option.map erasePrice) = es.map (Option.map erasePrice) := by
  induction es generalizing j with
  | nil => rfl
  | cons e? es ih =>
    cases j with
    | zero => cases e? <;> rfl
    | succ j => simp only [writePrice, List.map_cons, ih j]

theorem mergeStep_erase (es es₁ : List (Option entry)) (p? : Option entry)
    (h : mergeStep es p? = some es₁) :
    es₁.map (Option.map erasePrice) = es.map (Option.map erasePrice) := by
  cases es with
  | nil =>
    cases p? <;> (cases Option.some.inj h; rfl)
  | cons e? es =>
    cases p? with
    | none => simp [mergeStep] at h
    | some p =>
      rw [mergeStep_some] at h
      rcases setFirst_some_cases _ _ p h with ⟨_, heq⟩ | ⟨j, _, heq⟩
      · rw [heq]
      · rw [heq, writePrice_erase]

theorem merge_erase : ∀ (ps es r : List (Option entry)),
    merge es ps = some r →
    r.map (Option.map erasePrice) = es.map (Option.map erasePrice) := by
  intro ps
  induction ps with
  | nil =>
    intro es r hm
    cases Option.some.inj hm
    rfl
  | cons p? ps ih =>
    intro es r hm
    simp only [merge] at hm
    cases hstep : mergeStep es p? with
    | none => rw [hstep] at hm; simp at hm
    | some es₁ =>
      rw [hstep] at hm
      simp only [Option.some_bind] at hm
      exact (ih es₁ r hm).trans (mergeStep_erase es es₁ p? hstep)

end MergeLemmas

/-! ## Forecast fetcher -/

/-- The construction loop of `fetchWinds` (`src/main.go` lines 239-252):
`max := 72; entries := make([]*entry, max)`, then for each index `i` of the
parsed `time` array, stopping when `i == max`, store a freshly allocated
record `entry{hour: times[i], speed: speeds[i], gust: gusts[i]}` into slot
`i`.  The first argument is the number of slots still available (initially
72).  Indexing `speeds` or `gusts` out of range is a runtime panic (`none`).
Slots the loop never reaches keep the zero value of `*entry`, a `nil`
pointer, modelled as `none`. -/
def windEntriesLoop : Nat → List String → List Rat → List Rat → Option (List (Option entry))
  | k, [], _, _ => some (List.replicate k none)
  | 0, _ :: _, _, _ => some []
  | k + 1, t :: ts, ss, gs =>
    match ss, gs with
    | s :: ss, g :: gs =>
      (windEntriesLoop k ts ss gs).map
        (fun l => some { hour := t, gust := g, speed := s, price := 0 } :: l)
    | _, _ => none

/-- `fetchWinds` from `src/main.go` (lines 231-253), with the HTTP transport
(`sendRequest`) and the `jsonparser` array traversals (`parseString`,
`parseFloat`) modelled as external collaborators: the function takes the
three parsed arrays `hourly.time`, `hourly.windspeed_10m`,
`hourly.windgusts_10m` directly. -/
def fetchWinds (times : List String) (speeds gusts : List Rat) : Option (List (Option entry)) :=
  windEntriesLoop 72 times speeds gusts

theorem replicate_none_get? (k i : Nat) (h : i < k) :
    (List.replicate k (none : Option entry)).get? i = some none := by
  induction k generalizing i with
  | zero => omega
  | succ k ih =>
    cases i with
    | zero => rfl
    | succ i => exact ih i (by omega)

theorem filterMap_id_replicate_none (k : Nat) :
    ((List.replicate k (none : Option entry)).filterMap id).length = 0 := by
  induction k with
  | zero => rfl
  | succ k ih => simp [List.replicate, List.filterMap, ih]

theorem windEntriesLoop_spec : ∀ (ts : List String) (k : Nat) (ss gs : List Rat),
    Nat.min ts.length k ≤ ss.length → Nat.min ts.length k ≤ gs.length →
    ∃ l, windEntriesLoop k ts ss gs = some l ∧ l.length = k ∧
      (l.filterMap id).length = Nat.min ts.length k ∧
      (∀ i, i < Nat.min ts.length k →
        l.get? i = some (some { hour := ts.getD i "", gust := gs.getD i 0,
                                speed := ss.getD i 0, price := 0 })) ∧
      (∀ i, Nat.min ts.length k ≤ i → i < k → l.get? i = some none) := by
  intro ts
  induction ts with
  | nil =>
    intro k ss gs _ _
    refine ⟨List.replicate k none, by simp [windEntriesLoop], List.length_replicate k none,
      ?_, ?_, ?_⟩
    · simp [filterMap_id_replicate_none k]
    · intro i hi
      simp at hi
    · intro i _ hi
      exact replicate_none_get? k i hi
  | cons t ts ih =>
    intro k ss gs hss hgs
    cases k with
    | zero =>
      exact ⟨[], by simp [windEntriesLoop], rfl, by simp, by intro i hi; simp at hi,
        by intro i _ hi; omega⟩
    | succ k =>
      have hmin : Nat.min (t :: ts).length (k + 1) = Nat.min ts.length k + 1 := by
        simp [List.length_cons, Nat.succ_min_succ]
      rw [hmin] at hss hgs
      cases ss with
      | nil => simp at hss
      | cons s ss =>
        cases gs with
        | nil => simp at hgs
        | cons g gs =>
          simp only [List.length_cons, Nat.succ_le_succ_iff] at hss hgs
          obtain ⟨l, hl, hlen, hcount, hfill, htail⟩ := ih k ss gs hss hgs
          refine ⟨some { hour := t, gust := g, speed := s, price := 0 } :: l, ?_, ?_, ?_, ?_, ?_⟩
          · simp only [windEntriesLoop, hl, Option.map_some']
          · simp [hlen]
          · rw [hmin]
            simp only [List.filterMap_cons, id]
            simp only [List.length_cons]
            omega
          · intro i hi
            rw [hmin] at hi
            cases i with
            | zero => rfl
            | succ i => exact hfill i (by omega)
          · intro i hi hik
            rw [hmin] at hi
            cases i with
            | zero => omega
            | succ i => exact htail i (by omega) (by omega)

theorem windEntriesLoop_isSome : ∀ (ts : List String) (k : Nat) (ss gs : List Rat),
    (windEntriesLoop k ts ss gs).isSome ↔
      (Nat.min ts.length k ≤ ss.length ∧ Nat.min ts.length k ≤ gs.length) := by
  intro ts
  induction ts with
  | nil =>
    intro k ss gs
    simp [windEntriesLoop]
  | cons t ts ih =>
    intro k ss gs
    cases k with
    | zero => simp [windEntriesLoop]
    | succ k =>
      have hmin : Nat.min (t :: ts).length (k + 1) = Nat.min ts.length k + 1 := by
        simp [List.length_cons, Nat.succ_min_succ]
      rw [hmin]
      cases ss with
      | nil => simp [windEntriesLoop]
      | cons s ss =>
        cases gs with
        | nil => simp [windEntriesLoop]
        | cons g gs =>
          simp only [windEntriesLoop, List.length_cons, Nat.succ_le_succ_iff]
          cases hrec : windEntriesLoop k ts ss gs with
          | none =>
            have := (ih k ss gs)
            rw [hrec] at this
            simpa using this
          | some l =>
            have := (ih k ss gs)
            rw [hrec] at this
            simpa using this

theorem windEntriesLoop_take : ∀ (ts : List String) (k : Nat) (ss gs : List Rat),
    windEntriesLoop k ts ss gs = windEntriesLoop k (ts.take k) (ss.take k) (gs.take k) := by
  intro ts
  induction ts with
  | nil => intro k ss gs; simp [windEntriesLoop]
  | cons t ts ih =>
    intro k ss gs
    cases k with
    | zero => cases ss <;> cases gs <;> rfl
    | succ k =>
      cases ss with
      | nil => cases gs <;> rfl
      | cons s ss =>
        cases gs with
        | nil => rfl
        | cons g gs =>
          simp only [List.take_succ_cons, windEntriesLoop]
          rw [ih k ss gs]

/-! ## Price fetcher -/

/-- One element of the pricing API's JSON array, as read by `parsePrices`
(`src/main.go` lines 333-344): `jsonparser.GetString(value, "time_start")`
yields the empty string when the field is missing (modelled by
`timeStart = none`), and `GetFloat(value, "SEK_per_kWh")` yields the price.
Timestamps from this API are ASCII, so Go's byte-based `len`/slicing and
Lean's character-based `String.length`/`String.take` coincide on them. -/
structure priceItem where
  timeStart : Option String
  sekPerKWh : Rat
deriving DecidableEq, Repr

/-- The body of the `ArrayEach` callback in `parsePrices`: reads
`time_start` (empty string when absent) and `SEK_per_kWh`, then builds an
`entry` whose hour is `s[0:16]`.  The unguarded slice `s[0:16]` panics when
the string has fewer than 16 characters, modelled by `none`. -/
def parsePriceItem (it : priceItem) : Option entry :=
  let s := it.timeStart.getD ""
  if 16 ≤ s.length then
    some { hour := s.take 16, gust := 0, speed := 0, price := it.sekPerKWh }
  else none

/-- `parsePrices` from `src/main.go` (lines 333-344): `ArrayEach` over the
response body, appending one entry per element.  A panic inside the callback
aborts the whole function (`none`). -/
def parsePrices : List priceItem → Option (List entry)
  | [] => some []
  | it :: body =>
    (parsePriceItem it).bind (fun e => (parsePrices body).map (fun l => e :: l))

/-- `fetchPrices` from `src/main.go` (lines 282-294): fetch and parse
today's prices, then tomorrow's, and return `append(eToday, eTomorrow...)`.
The two HTTP requests (`sendPriceRequest`) are external collaborators; the
function takes the two parsed JSON arrays.  An error on either sub-request
aborts the fetch; here the remaining failure mode is a parse panic. -/
def fetchPrices (todayBody tomorrowBody : List priceItem) : Option (List entry) :=
  (parsePrices todayBody).bind
    (fun eToday => (parsePrices tomorrowBody).map (fun eTomorrow => eToday ++ eTomorrow))

theorem parsePrices_length : ∀ (body : List priceItem) (l : List entry),
    parsePrices body = some l → l.length = body.length := by
  intro body
  induction body with
  | nil =>
    intro l h
    cases Option.some.inj h
    rfl
  | cons it body ih =>
    intro l h
    simp only [parsePrices] at h
    cases he : parsePriceItem it with
    | none => rw [he] at h; simp at h
    | some e =>
      rw [he] at h
      simp only [Option.some_bind] at h
      cases hb : parsePrices body with
      | none => rw [hb] at h; simp at h
      | some l' =>
        rw [hb] at h
        simp only [Option.map_some'] at h
        cases Option.some.inj h
        simp [ih l' hb]

theorem parsePrices_get? : ∀ (body : List priceItem) (l : List entry),
    parsePrices body = some l → ∀ i, l.get? i = (body.get? i).bind parsePriceItem := by
  intro body
  induction body with
  | nil =>
    intro l h i
    cases Option.some.inj h
    cases i <;> rfl
  | cons it body ih =>
    intro l h i
    simp only [parsePrices] at h
    cases he : parsePriceItem it with
    | none => rw [he] at h; simp at h
    | some e =>
      rw [he] at h
      simp only [Option.some_bind] at h
      cases hb : parsePrices body with
      | none => rw [hb] at h; simp at h
      | some l' =>
        rw [hb] at h
        simp only [Option.map_some'] at h
        cases Option.some.inj h
        cases i with
        | zero => simp [he]
        | succ i => exact ih l' hb i

theorem parsePrices_isSome : ∀ (body : List priceItem),
    (parsePrices body).isSome ↔ ∀ it ∈ body, 16 ≤ ((it.timeStart.getD "").length) := by
  intro body
  induction body with
  | nil => simp [parsePrices]
  | cons it body ih =>
    simp only [parsePrices, List.mem_cons]
    constructor
    · intro h
      cases he : parsePriceItem it with
      | none => rw [he] at h; simp at h
      | some e =>
        rw [he] at h
        simp only [Option.some_bind] at h
        cases hb : parsePrices body with
        | none => rw [hb] at h; simp at h
        | some l' =>
          intro x hx
          rcases hx with rfl | hx
          · by_contra hlen
            simp only [parsePriceItem] at he
            rw [if_neg (by omega)] at he
            exact Option.noConfusion he
          · exact (ih.mp (by simp [hb])) x hx
    · intro h
      have hit : 16 ≤ ((it.timeStart.getD "").length) := h it (Or.inl rfl)
      have hbody : (parsePrices body).isSome := ih.mpr (fun x hx => h x (Or.inr hx))
      cases hb : parsePrices body with
      | none => rw [hb] at hbody; simp at hbody
      | some l' =>
        simp only [parsePriceItem, if_pos hit, Option.some_bind, hb, Option.map_some',
          Option.isSome_some]

/-! ## Request handler -/

/-- What the handler writes for a `/wind.json` request, after the method,
client-IP and geolocation gates have passed. -/
inductive windResponse where
  /-- A runtime panic (nil-pointer dereference) before anything is written. -/
  | crashed : windResponse
  /-- `WriteHeader(status)` followed by an error message line. -/
  | error : Nat → String → windResponse
  /-- Implicit status 200 with the `toJSON` rendering of the final entries
  slice (`fmt.Fprintf(rw, "%s\n", toJSON(entries))`). -/
  | output : Nat → List (Option entry) → windResponse
deriving DecidableEq, Repr

/-- The `/wind.json` pipeline of the handler in `main` (`src/main.go` lines
210-221 and 546-558):

```
entries, err := fetchWinds(ctx, ...)
prices, err := fetchPrices(ctx, "SE4")
merge(entries, prices)
if err != nil { 502 + err }
... toJSON(entries)
```

`fw` and `fp` are the outcomes of the two fetches (`Except.error` is a
non-nil Go error, paired with a `nil` result slice).  The second `err :=`
overwrites the first, exactly as in the source; `merge` runs before the
error check; `toJSON` dereferences every entry pointer, so a `nil` slot in
the rendered slice panics.  The `/wind.html` branch differs only in the
renderer. -/
def handleWindJSON (fw : Except String (List (Option entry)))
    (fp : Except String (List entry)) : windResponse :=
  let entries : List (Option entry) := match fw with
    | .ok es => es
    | .error _ => []
  let prices : List (Option entry) := match fp with
    | .ok ps => ps.map some
    | .error _ => []
  let err : Option String := match fp with
    | .ok _ => none
    | .error e => some e
  match merge entries prices with
  | none => .crashed
  | some merged =>
    match err with
    | some e => .error 502 e
    | none => if merged.all (·.isSome) then .output 200 merged else .crashed

/-! ## Claim theorems -/

/-- C1 (code bug): the spec requires a 502 response with the underlying
error message whenever either fetch fails, and in particular for a
forecast-fetch failure alone.  The code overwrites the `err` returned by
`fetchWinds` with the one returned by `fetchPrices`, so when only the
forecast fetch fails (price fetch succeeding) the handler falls through to
rendering and responds 200 with the output of `toJSON` over the `nil`
entries slice — an empty JSON array — instead of 502 with the forecast
error.  This theorem evaluates the handler at such a failing input. -/
theorem handleWindJSON_forecast_error :
    handleWindJSON (.error "wind: connection refused")
        (.ok [{ hour := "2023-02-15T14:00", gust := 0, speed := 0, price := 45 }]) =
      .output 200 [] := by
  decide

/-- C2: for aligned time/speed/gust arrays of common length N ≤ 72, the
construction loop of `fetchWinds` succeeds, fills exactly min(N,72) record
slots (the rest of the fixed 72-slot allocation stays `nil`), and slot `i`
holds exactly the `i`-th time, speed and gust, with price zero. -/
theorem fetchWinds_aligned (ts : List String) (ss gs : List Rat)
    (h1 : ss.length = ts.length) (h2 : gs.length = ts.length) (h3 : ts.length ≤ 72) :
    ∃ l, fetchWinds ts ss gs = some l ∧ l.length = 72 ∧
      (l.filterMap id).length = Nat.min ts.length 72 ∧
      ∀ i, i < Nat.min ts.length 72 →
        l.get? i = some (some { hour := ts.getD i "", gust := gs.getD i 0,
                                speed := ss.getD i 0, price := 0 }) := by
  have hmin : Nat.min ts.length 72 = ts.length := Nat.min_eq_left h3
  obtain ⟨l, hl, hlen, hcount, hfill, _⟩ :=
    windEntriesLoop_spec ts 72 ss gs (by rw [hmin]; omega) (by rw [hmin]; omega)
  exact ⟨l, hl, hlen, hcount, hfill⟩

/-- Witness for C2 at a concrete one-hour forecast response. -/
theorem fetchWinds_aligned_witness :
    [(3:Rat)].length = ["2023-02-15T14:00"].length ∧
    [(5:Rat)].length = ["2023-02-15T14:00"].length ∧
    ["2023-02-15T14:00"].length ≤ 72 ∧
    ∃ l, fetchWinds ["2023-02-15T14:00"] [(3:Rat)] [(5:Rat)] = some l ∧ l.length = 72 ∧
      (l.filterMap id).length = Nat.min ["2023-02-15T14:00"].length 72 ∧
      ∀ i, i < Nat.min ["2023-02-15T14:00"].length 72 →
        l.get? i = some (some { hour := ["2023-02-15T14:00"].getD i "",
                                gust := [(5:Rat)].getD i 0,
                                speed := [(3:Rat)].getD i 0, price := 0 }) :=
  ⟨rfl, rfl, by decide, fetchWinds_aligned ["2023-02-15T14:00"] [3] [5] rfl rfl (by decide)⟩

/-- C3: the result of `fetchWinds` is the fixed 72-slot allocation: whenever
the loop completes the result has length 72, slots at indices from the
times-array length up to 71 hold the slot type's zero value (a `nil`
pointer, `none`), and input entries beyond index 72 are dropped (the result
only depends on the first 72 elements of each array). -/
theorem fetchWinds_cap (ts : List String) (ss gs : List Rat) :
    (∀ l, fetchWinds ts ss gs = some l →
      l.length = 72 ∧ ∀ i, ts.length ≤ i → i < 72 → l.get? i = some none) ∧
    fetchWinds ts ss gs = fetchWinds (ts.take 72) (ss.take 72) (gs.take 72) := by
  constructor
  · intro l hl
    have hs := (windEntriesLoop_isSome ts 72 ss gs).mp (by simp [fetchWinds] at hl; simp [hl])
    obtain ⟨l', hl', hlen, _, _, htail⟩ := windEntriesLoop_spec ts 72 ss gs hs.1 hs.2
    have : l' = l := by
      simp only [fetchWinds] at hl
      rw [hl] at hl'
      exact (Option.some.inj hl').symm
    subst this
    refine ⟨hlen, fun i hi hik => htail i ?_ hik⟩
    exact le_trans (Nat.min_le_left _ _) hi
  · exact windEntriesLoop_take ts 72 ss gs

/-- Witness for C3: a one-hour response leaves slot 3 of the 72-slot
allocation holding the zero value `none`. -/
theorem fetchWinds_cap_witness :
    (some ({ hour := "2023-02-15T14:00", gust := 5, speed := 3, price := 0 } : entry) ::
      List.replicate 71 (none : Option entry)).get? 3 = some none :=
  ((fetchWinds_cap ["2023-02-15T14:00"] [(3:Rat)] [(5:Rat)]).1 _ rfl).2 3 (by decide) (by decide)

/-- C9 (amended): the construction loop of `fetchWinds`, bounded by the
times-array length capped at 72, completes exactly when the speeds and
gusts arrays each have at least min(len(times), 72) entries; when either is
shorter, the unguarded index access `speeds[i]`/`gusts[i]` is out of range
and `fetchWinds` panics instead of completing. -/
theorem fetchWinds_defined_iff (ts : List String) (ss gs : List Rat) :
    (fetchWinds ts ss gs).isSome ↔
      (Nat.min ts.length 72 ≤ ss.length ∧ Nat.min ts.length 72 ≤ gs.length) :=
  windEntriesLoop_isSome ts 72 ss gs

/-- C9 counterexample: with two parsed times but a single speed entry, the
loop reaches `speeds[1]`, which is out of range, and panics — refuting the
claim that the loop completes regardless of the other arrays' lengths. -/
theorem fetchWinds_panic_cex :
    fetchWinds ["2023-02-15T14:00", "2023-02-15T15:00"] [(3:Rat)] [(5:Rat), 6] = none := by
  decide

/-- C10: `parsePrices` is defined exactly when every element's effective
`time_start` string (the empty string when the field is missing) has at
least 16 characters; any shorter string makes the unguarded slice
`s[0:16]` an out-of-bounds access, so the function is not defined there. -/
theorem parsePrices_defined_iff (body : List priceItem) :
    (parsePrices body).isSome ↔ ∀ it ∈ body, 16 ≤ ((it.timeStart.getD "").length) :=
  parsePrices_isSome body

theorem lastWriteTo_eq_lastPrice (es : List (Option entry)) (i : Nat) (e : entry)
    (he : es.get? i = some (some e)) (hs : scanIdx es e.hour = some (some i)) :
    ∀ ps, lastWriteTo es ps i = lastPrice ps e.hour := by
  intro ps
  induction ps with
  | nil => rfl
  | cons p ps ih =>
    simp only [lastWriteTo, lastPrice, ih]
    cases lastPrice ps e.hour with
    | some v => rfl
    | none =>
      by_cases hp : p.hour = e.hour
      · have hc : scanIdx es p.hour = some (some i) := by rw [hp]; exact hs
        rw [if_pos hc, if_pos hp]
      · have hc : ¬ scanIdx es p.hour = some (some i) := by
          intro hcon
          obtain ⟨e', he', hh⟩ := scanIdx_sound es p.hour i hcon
          rw [he] at he'
          cases Option.some.inj (Option.some.inj he')
          exact hp hh.symm
        rw [if_neg hc, if_neg hp]

theorem lastWriteTo_none (es : List (Option entry)) (i : Nat) (e : entry)
    (he : es.get? i = some (some e)) (hs : ¬ scanIdx es e.hour = some (some i)) :
    ∀ ps, lastWriteTo es ps i = none := by
  intro ps
  induction ps with
  | nil => rfl
  | cons p ps ih =>
    simp only [lastWriteTo, ih]
    rw [if_neg]
    intro hcon
    obtain ⟨e', he', hh⟩ := scanIdx_sound es p.hour i hcon
    rw [he] at he'
    cases Option.some.inj (Option.some.inj he')
    refine hs ?_
    rw [hh]
    exact hcon

/-- C4 (amended): after a completed `merge entries prices`, every record
slot keeps its hour, speed and gust, and its price becomes: the price of
the LAST price point whose hour equals the slot's hour, if the slot is the
first one carrying that hour and such a price point exists (in particular
`p.price` when `p` is the only price point with that hour), and its input
price otherwise — so later duplicate-hour slots never receive a price, and
slots whose hour matches no price point retain their input price (price 0
for entries freshly built by the forecast fetcher). -/
theorem merge_first_match (es : List (Option entry)) (ps : List entry)
    (r : List (Option entry)) (h : merge es (ps.map some) = some r)
    (i : Nat) (e : entry) (he : es.get? i = some (some e)) :
    ∃ e', r.get? i = some (some e') ∧ e'.hour = e.hour ∧ e'.speed = e.speed ∧
      e'.gust = e.gust ∧
      e'.price = (if scanIdx es e.hour = some (some i)
        then (lastPrice ps e.hour).getD e.price else e.price) := by
  have hspec := merge_get?_spec ps es r h i
  rw [he] at hspec
  refine ⟨{ e with price := (lastWriteTo es ps i).getD e.price },
    hspec.trans rfl, rfl, rfl, rfl, ?_⟩
  by_cases hs : scanIdx es e.hour = some (some i)
  · rw [if_pos hs]
    rw [show (({ e with price := (lastWriteTo es ps i).getD e.price } : entry)).price
        = (lastWriteTo es ps i).getD e.price from rfl]
    rw [lastWriteTo_eq_lastPrice es i e he hs ps]
  · rw [if_neg hs]
    rw [show (({ e with price := (lastWriteTo es ps i).getD e.price } : entry)).price
        = (lastWriteTo es ps i).getD e.price from rfl]
    rw [lastWriteTo_none es i e he hs ps]
    rfl

/-- Witness for C4 (amended) at a one-entry, one-price input. -/
theorem merge_first_match_witness :
    ∃ e' : entry,
      [some ({ hour := "a", gust := 0, speed := 0, price := 3 } : entry)].get? 0 =
        some (some e') ∧
      e'.hour = "a" ∧ e'.speed = 0 ∧ e'.gust = 0 ∧ e'.price = 3 := by
  obtain ⟨e', h1, h2, h3, h4, h5⟩ :=
    merge_first_match [some { hour := "a", gust := 0, speed := 0, price := 0 }]
      [{ hour := "a", gust := 0, speed := 0, price := 3 }]
      [some { hour := "a", gust := 0, speed := 0, price := 3 }] (by decide)
      0 { hour := "a", gust := 0, speed := 0, price := 0 } rfl
  refine ⟨e', h1, h2, h3, h4, ?_⟩
  rw [h5]
  decide

/-- C4 counterexample: entries with hours "a" (price 0) and "b" (price 7),
prices with two points for hour "a" (1 then 2).  After merge the first
matching entry for the price point with price 1 holds price 2 — the last
matching point's price, not `p.price` — and the unmatched "b" entry has
price 7, not 0. -/
theorem merge_c4_counterexample :
    merge [some ({ hour := "a", gust := 0, speed := 0, price := 0 } : entry),
           some ({ hour := "b", gust := 0, speed := 0, price := 7 } : entry)]
        ([({ hour := "a", gust := 0, speed := 0, price := 1 } : entry),
          ({ hour := "a", gust := 0, speed := 0, price := 2 } : entry)].map some) =
      some [some ({ hour := "a", gust := 0, speed := 0, price := 2 } : entry),
            some ({ hour := "b", gust := 0, speed := 0, price := 7 } : entry)] ∧
    ((2:Rat) ≠ 1) ∧ ((7:Rat) ≠ 0) ∧
    "b" ∉ [({ hour := "a", gust := 0, speed := 0, price := 1 } : entry),
           ({ hour := "a", gust := 0, speed := 0, price := 2 } : entry)].map entry.hour := by
  refine ⟨by decide, by decide, by decide, by decide⟩

/-- C5: `merge` is idempotent — whenever a first run over the same prices
completes with final state `r`, a second run from `r` completes and leaves
`r` unchanged. -/
theorem merge_idem (es : List (Option entry)) (ps : List entry) (r : List (Option entry))
    (h : merge es (ps.map some) = some r) :
    merge r (ps.map some) = some r := by
  have hscan : ∀ h', scanIdx r h' = scanIdx es h' := merge_scanIdx_inv ps es r h
  obtain ⟨r', hr'⟩ := merge_isSome_congr ps es r r hscan h
  have hr'eq : r' = r := by
    apply get?_ext
    intro i
    rw [merge_get?_spec ps r r' hr' i, lastWriteTo_congr es r hscan ps i,
      merge_get?_spec ps es r h i]
    exact map_price_getD_twice (lastWriteTo es ps i) (es.get? i)
  rw [hr'eq] at hr'
  exact hr'

/-- Witness for C5 at a one-entry, one-price input. -/
theorem merge_idem_witness :
    merge [some ({ hour := "a", gust := 0, speed := 0, price := 1 } : entry)]
        ([({ hour := "a", gust := 0, speed := 0, price := 1 } : entry)].map some) =
      some [some ({ hour := "a", gust := 0, speed := 0, price := 1 } : entry)] :=
  merge_idem [some { hour := "a", gust := 0, speed := 0, price := 0 }]
    [{ hour := "a", gust := 0, speed := 0, price := 1 }]
    [some { hour := "a", gust := 0, speed := 0, price := 1 }] (by decide)

/-- C6: `merge` is a frame over everything but prices — whenever it
completes, the final entries slice has the same length and order, the same
`nil` slots, and the same hour, speed and gust in every record; only price
fields can differ.  The prices argument is only read (`p.hour`, `p.price`),
never written, so it is unchanged (immediate in this functional embedding;
in Go the prices slice itself is never reassigned and no price record is
written through). -/
theorem merge_price_frame (es ps r : List (Option entry)) (h : merge es ps = some r) :
    r.length = es.length ∧
    r.map (Option.map erasePrice) = es.map (Option.map erasePrice) := by
  have hmap := merge_erase ps es r h
  refine ⟨?_, hmap⟩
  have hlen := congrArg List.length hmap
  simpa using hlen

/-- Witness for C6 at a one-entry, one-price input. -/
theorem merge_price_frame_witness :
    [some ({ hour := "a", gust := 1, speed := 2, price := 9 } : entry)].length =
      [some ({ hour := "a", gust := 1, speed := 2, price := 0 } : entry)].length ∧
    [some ({ hour := "a", gust := 1, speed := 2, price := 9 } : entry)].map
        (Option.map erasePrice) =
      [some ({ hour := "a", gust := 1, speed := 2, price := 0 } : entry)].map
        (Option.map erasePrice) :=
  merge_price_frame [some { hour := "a", gust := 1, speed := 2, price := 0 }]
    [some { hour := "a", gust := 0, speed := 0, price := 9 }]
    [some { hour := "a", gust := 1, speed := 2, price := 9 }] (by decide)

/-- C7: when both days' bodies parse, `fetchPrices` returns exactly today's
entries followed by tomorrow's (`eToday ++ eTomorrow`), of total length the
sum of the two array lengths, each day's entries in input order with no
other reordering. -/
theorem fetchPrices_concat (tb tmb : List priceItem) (a b : List entry)
    (h1 : parsePrices tb = some a) (h2 : parsePrices tmb = some b) :
    fetchPrices tb tmb = some (a ++ b) ∧
    (a ++ b).length = tb.length + tmb.length ∧
    a.length = tb.length ∧ b.length = tmb.length ∧
    (∀ i, a.get? i = (tb.get? i).bind parsePriceItem) ∧
    (∀ i, b.get? i = (tmb.get? i).bind parsePriceItem) := by
  have ha := parsePrices_length tb a h1
  have hb := parsePrices_length tmb b h2
  refine ⟨?_, ?_, ha, hb, parsePrices_get? tb a h1, parsePrices_get? tmb b h2⟩
  · simp [fetchPrices, h1, h2]
  · simp [List.length_append, ha, hb]

/-- Witness for C7 at concrete one-element bodies for the two days. -/
theorem fetchPrices_concat_witness :
    fetchPrices [{ timeStart := some "2023-02-15T14:00:00+01:00", sekPerKWh := 45 }]
        [{ timeStart := some "2023-02-16T09:00:00+01:00", sekPerKWh := 91 }] =
      some ([{ hour := "2023-02-15T14:00", gust := 0, speed := 0, price := 45 }] ++
            [{ hour := "2023-02-16T09:00", gust := 0, speed := 0, price := 91 }]) ∧
    ([({ hour := "2023-02-15T14:00", gust := 0, speed := 0, price := 45 } : entry)] ++
     [({ hour := "2023-02-16T09:00", gust := 0, speed := 0, price := 91 } : entry)]).length
      = 1 + 1 :=
  have h := fetchPrices_concat
    [{ timeStart := some "2023-02-15T14:00:00+01:00", sekPerKWh := 45 }]
    [{ timeStart := some "2023-02-16T09:00:00+01:00", sekPerKWh := 91 }]
    [{ hour := "2023-02-15T14:00", gust := 0, speed := 0, price := 45 }]
    [{ hour := "2023-02-16T09:00", gust := 0, speed := 0, price := 91 }]
    (by decide) (by decide)
  ⟨h.1, h.2.1⟩

/-- C8: every entry produced by `parsePrices` carries as its hour exactly
the first 16 characters of the corresponding element's `time_start` string
(the empty string when the field is missing) and as its price the
element's `SEK_per_kWh` value. -/
theorem parsePrices_hour_key (body : List priceItem) (l : List entry)
    (h : parsePrices body = some l) (i : Nat) (it : priceItem)
    (hi : body.get? i = some it) :
    ∃ e, l.get? i = some e ∧ e.hour = (it.timeStart.getD "").take 16 ∧
      e.price = it.sekPerKWh := by
  have hg := parsePrices_get? body l h i
  rw [hi] at hg
  simp only [Option.some_bind] at hg
  have hlen := parsePrices_length body l h
  have hlt : i < body.length := by
    by_contra hcon
    rw [List.get?_eq_none.mpr (by omega)] at hi
    exact Option.noConfusion hi
  have hlt' : i < l.length := by omega
  cases hp : parsePriceItem it with
  | none =>
    rw [hp] at hg
    have := List.get?_eq_none.mp hg
    omega
  | some e =>
    rw [hp] at hg
    obtain ⟨hhour, hprice⟩ : e.hour = (it.timeStart.getD "").take 16 ∧
        e.price = it.sekPerKWh := by
      simp only [parsePriceItem] at hp
      by_cases hc : 16 ≤ (it.timeStart.getD "").length
      · rw [if_pos hc] at hp
        have h1 := Option.some.inj hp
        constructor
        · rw [← h1]
        · rw [← h1]
      · rw [if_neg hc] at hp
        exact Option.noConfusion hp
    exact ⟨e, hg, hhour, hprice⟩

/-- Witness for C8 at a concrete pricing-API element. -/
theorem parsePrices_hour_key_witness :
    ∃ e : entry,
      [({ hour := "2023-02-15T14:00", gust := 0, speed := 0, price := 45 } : entry)].get? 0 =
        some e ∧
      e.hour = ((some "2023-02-15T14:00:00+01:00" : Option String).getD "").take 16 ∧
      e.price = 45 :=
  parsePrices_hour_key
    [{ timeStart := some "2023-02-15T14:00:00+01:00", sekPerKWh := 45 }]
    [{ hour := "2023-02-15T14:00", gust := 0, speed := 0, price := 45 }]
    (by decide) 0
    { timeStart := some "2023-02-15T14:00:00+01:00", sekPerKWh := 45 } rfl
